import Mathlib

/-!
Verification of the key-value store in `src/main.cpp`.

The program is an in-memory `std::unordered_map<std::string, std::string>`
wrapped in a class `KeyValueStore`, with a JSON-like snapshot format written
by `save_to_file` and read back by `load_from_file`.

Embedding conventions:
* C++ strings are embedded as `List Char` (`Str`), one element per character.
* The map is embedded as an association list with unique keys; `store_[k] = v`
  becomes `setEntry` (replace the entry with key `k` in place, or append),
  `store_.find` becomes `List.find?`, and `store_.erase(k)` removes the
  entries with key `k` (on a map there is at most one, so a filter).
* A file is an `Option Str`: `none` means the stream could not be opened,
  `some content` is the full text of the file.  `std::getline` is embedded
  by `getlines`, which splits the text at newline characters and yields no
  final empty line when the text ends in a newline, exactly as `getline`.
* `save_to_file` takes a flag saying whether the destination opened, and
  returns the (unchanged, the C++ method is `const`) store together with the
  written text; `load_from_file` returns the resulting store together with a
  success flag (`false` exactly when the C++ code takes the early-error path).
-/

namespace KVStore

/-- A C++ `std::string`, one list element per character. -/
abbrev Str := List Char

/-- The whitespace set `" \t\n\r"` used by `trim` in `main.cpp`. -/
def isWsChar (c : Char) : Bool :=
  decide (c = ' ') || decide (c = '\t') || decide (c = '\n') || decide (c = '\r')

/-- `trim` from `main.cpp`: remove leading and trailing characters from the
set `" \t\n\r"`; a string of only such characters trims to the empty string. -/
def trim (s : Str) : Str :=
  ((s.dropWhile isWsChar).reverse.dropWhile isWsChar).reverse

/-- `escape` from `main.cpp`: each `"` becomes `\"` and each `\` becomes `\\`;
every other character is copied unchanged. -/
def escape (s : Str) : Str :=
  s.foldr
    (fun c out =>
      if c = '"' then '\\' :: '"' :: out
      else if c = '\\' then '\\' :: '\\' :: out
      else c :: out)
    []

/-- `store_[key] = value` on the map: replace the first entry whose key is
`key` (keys are unique in a map, so the only one), or append a new entry. -/
def setEntry : List (Str × Str) → Str → Str → List (Str × Str)
  | [], k, v => [(k, v)]
  | e :: rest, k, v =>
      if e.1 = k then (k, v) :: rest else e :: setEntry rest k v

/-- The store: the `store_` field of class `KeyValueStore`. The mutex is not
part of the sequential state. -/
structure KeyValueStore where
  store_ : List (Str × Str)
  deriving DecidableEq

namespace KeyValueStore

/-- `KeyValueStore::set`: insert or overwrite. -/
def set (kv : KeyValueStore) (key value : Str) : KeyValueStore :=
  ⟨setEntry kv.store_ key value⟩

/-- `KeyValueStore::get`: `store_.find(key)`, `nullopt` when absent. -/
def get (kv : KeyValueStore) (key : Str) : Option Str :=
  match kv.store_.find? (fun e => decide (e.1 = key)) with
  | some e => some e.2
  | none => none

/-- `KeyValueStore::remove`: `store_.erase(key)` deletes the entry with that
key when present (a map holds at most one such entry). -/
def remove (kv : KeyValueStore) (key : Str) : KeyValueStore :=
  ⟨kv.store_.filter (fun e => !decide (e.1 = key))⟩

/-- `KeyValueStore::exists`: `store_.find(key) != store_.end()`. -/
def exists_ (kv : KeyValueStore) (key : Str) : Bool :=
  kv.store_.any (fun e => decide (e.1 = key))

/-- `KeyValueStore::clear`: `store_.clear()`. -/
def clear (_kv : KeyValueStore) : KeyValueStore :=
  ⟨[]⟩

end KeyValueStore

/-- `if (!s.empty() && s.front() == c) s = s.substr(1);` specialised to the
quote character, as used on the parsed key and value in `load_from_file`. -/
def stripLeadQuote : Str → Str
  | '"' :: rest => rest
  | s => s

/-- `if (!s.empty() && s.back() == c) s.pop_back();` from `load_from_file`. -/
def stripTrail (c : Char) (s : Str) : Str :=
  match s.getLast? with
  | some d => if d = c then s.dropLast else s
  | none => s

/-- The body of the `while (std::getline ...)` loop of `load_from_file` on a
single raw line, up to and excluding the final `store_[key] = value`: `none`
means the line is skipped (`continue`), `some (key, value)` the entry stored. -/
def parseEntry (rawLine : Str) : Option (Str × Str) :=
  let line := trim rawLine
  if line = [] ∨ line = ['{'] ∨ line = ['}'] then none
  else if line.any (fun c => decide (c = ':')) then
    let key0 := trim (line.takeWhile (fun c => !decide (c = ':')))
    let value0 := trim ((line.dropWhile (fun c => !decide (c = ':'))).tail)
    some (stripTrail '"' (stripLeadQuote key0),
          stripTrail '"' (stripTrail ',' (stripLeadQuote value0)))
  else none

/-- One full iteration of the load loop: parse the line and store the entry,
or leave the accumulated map alone when the line is skipped. -/
def processLine (st : List (Str × Str)) (rawLine : Str) : List (Str × Str) :=
  match parseEntry rawLine with
  | none => st
  | some (k, v) => setEntry st k v

/-- `std::getline` applied repeatedly to a whole text: splits at `'\n'`; a
text ending in a newline yields no final empty line, exactly as `getline`,
which reports end of stream when no character precedes end of file. -/
def getlines : Str → List Str
  | [] => []
  | c :: rest =>
      if c = '\n' then [] :: getlines rest
      else
        match getlines rest with
        | [] => [[c]]
        | l :: ls => (c :: l) :: ls

/-- The single line `save_to_file` writes for one entry:
`  "escape(key)": "escape(value)"` followed by a comma unless last. -/
def entryLine (e : Str × Str) (isLast : Bool) : Str :=
  [' ', ' ', '"'] ++ escape e.1 ++ ['"', ':', ' ', '"'] ++ escape e.2
    ++ ['"'] ++ (if isLast then [] else [','])

/-- The text of the entry loop of `save_to_file`: each entry line followed by
a newline, with the comma on every line but the last. -/
def serializeEntries : List (Str × Str) → Str
  | [] => []
  | [e] => entryLine e true ++ ['\n']
  | e :: rest => entryLine e false ++ '\n' :: serializeEntries rest

/-- The complete text `save_to_file` writes: brace line, entry lines, brace
line. -/
def serialize (kv : KeyValueStore) : Str :=
  '{' :: '\n' :: (serializeEntries kv.store_ ++ ('}' :: '\n' :: []))

namespace KeyValueStore

/-- `KeyValueStore::save_to_file`. `canOpen` says whether the output stream
opened; on failure the method returns after logging, writing nothing
(`none`).  The method is `const`, so the store itself comes back unchanged in
both branches. -/
def save_to_file (kv : KeyValueStore) (canOpen : Bool) : KeyValueStore × Option Str :=
  if canOpen then (kv, some (serialize kv)) else (kv, none)

/-- `KeyValueStore::load_from_file`. The file is `none` when the stream does
not open (early return, store untouched, error reported: flag `false`);
otherwise `store_.clear()` runs and every line is fed through the parse loop
(flag `true`). -/
def load_from_file (kv : KeyValueStore) (file : Option Str) : KeyValueStore × Bool :=
  match file with
  | none => (kv, false)
  | some content => (⟨(getlines content).foldl processLine []⟩, true)

end KeyValueStore

/-- The entries a successful load of the given text produces (starting, as the
code does, from a cleared map). -/
def loadEntries (content : Str) : List (Str × Str) :=
  (getlines content).foldl processLine []

/-- Whether an association list holds an entry with the given key. -/
def hasKey (l : List (Str × Str)) (k : Str) : Bool :=
  l.any (fun e => decide (e.1 = k))

/-- Pairwise distinctness of the keys of an association list (the invariant
`std::unordered_map` maintains). -/
def keysDistinct : List (Str × Str) → Bool
  | [] => true
  | e :: rest => !hasKey rest e.1 && keysDistinct rest

/-- The lines parsed (not skipped) by a load of the given text, in order. -/
def parsedEntries (content : Str) : List (Str × Str) :=
  (getlines content).filterMap parseEntry

/-- The value carried by the last parsed line defining the given key, if any. -/
def lastDefined (k : Str) (es : List (Str × Str)) : Option Str :=
  match es.reverse.find? (fun e => decide (e.1 = k)) with
  | some e => some e.2
  | none => none

/-! ### Cleanliness predicates for the snapshot round trip -/

/-- The hypothesis of the round-trip claim, on a value: no character the
JSON-like writer would escape (`"` or `\`) nor any other character the format
cannot carry on one line (a newline). -/
def valueNeedsNoEscaping (v : Str) : Bool :=
  v.all (fun c => !(decide (c = '"') || decide (c = '\\') || decide (c = '\n')))

/-- A value the snapshot format round-trips: no quote, backslash or newline. -/
def cleanValue (v : Str) : Bool :=
  v.all (fun c => !(decide (c = '"') || decide (c = '\\') || decide (c = '\n')))

/-- A key the snapshot format round-trips: additionally no colon, since the
loader splits each line at its first colon. -/
def cleanKey (k : Str) : Bool :=
  k.all (fun c =>
    !(decide (c = '"') || decide (c = '\\') || decide (c = '\n') || decide (c = ':')))

/-! ### Operation traces

A trace of store operations, for the claims quantifying over sequences of
operations.  Queries and `print_all` keep the state; `save` and `load` carry
the environment (whether the stream opened, and for `load` the text read). -/

/-- One call into the public interface of `KeyValueStore`. -/
inductive Op where
  | set (k v : Str)
  | get (k : Str)
  | remove (k : Str)
  | existsQ (k : Str)
  | print_all
  | clear
  | save (canOpen : Bool)
  | load (file : Option Str)

/-- The state after executing one operation. -/
def exec (kv : KeyValueStore) : Op → KeyValueStore
  | .set k v => kv.set k v
  | .get _ => kv
  | .remove k => kv.remove k
  | .existsQ _ => kv
  | .print_all => kv
  | .clear => kv.clear
  | .save canOpen => (kv.save_to_file canOpen).1
  | .load file => (kv.load_from_file file).1

/-- Run a trace from the empty store the process starts with. -/
def run (ops : List Op) : KeyValueStore :=
  ops.foldl exec ⟨[]⟩

/-- Whether an operation is a mutating operation affecting the given key: a
`set` or `remove` of that key, a `clear`, or a successful `load` (which
discards every previous entry and installs its own). -/
def affects (k : Str) : Op → Bool
  | .set k' _ => decide (k' = k)
  | .remove k' => decide (k' = k)
  | .clear => true
  | .load (some _) => true
  | _ => false

/-- Whether an affecting operation leaves the key present: a `set` of the
key, or a successful `load` whose text defines the key. -/
def installs (k : Str) : Op → Bool
  | .set k' _ => decide (k' = k)
  | .load (some content) => hasKey (loadEntries content) k
  | _ => false

/-! ### The per-line load behaviour in the words of the specification -/

/-- The per-line load behaviour exactly as the specification words it: lines
equal to `{` or `}` after trimming are skipped; lines without a `:` are
skipped; the key is the text before the first `:` with a single leading and
trailing quote stripped; the value is the text after the first `:` with a
single leading quote stripped, then a single trailing comma stripped if
present, then a single trailing quote stripped.  No trimming of the key or
value fragments is mentioned, so none is performed. -/
def claimParseLine (rawLine : Str) : Option (Str × Str) :=
  let line := trim rawLine
  if line = ['{'] ∨ line = ['}'] then none
  else if ':' ∈ line then
    let i := line.findIdx (fun c => decide (c = ':'))
    some (stripTrail '"' (stripLeadQuote (line.take i)),
          stripTrail '"' (stripTrail ',' (stripLeadQuote (line.drop (i + 1)))))
  else none

/-- The per-line load behaviour as the specification words it, amended in one
place: the text before the first `:` and the text after it are each trimmed
of surrounding whitespace before the quote and comma stripping. -/
def specParseLine (rawLine : Str) : Option (Str × Str) :=
  let line := trim rawLine
  if line = ['{'] ∨ line = ['}'] then none
  else if ':' ∈ line then
    let i := line.findIdx (fun c => decide (c = ':'))
    some (stripTrail '"' (stripLeadQuote (trim (line.take i))),
          stripTrail '"' (stripTrail ',' (stripLeadQuote (trim (line.drop (i + 1))))))
  else none

/-! ## Helper lemmas on the association list -/

theorem find?_setEntry_self (st : List (Str × Str)) (k v : Str) :
    (setEntry st k v).find? (fun e => decide (e.1 = k)) = some (k, v) := by
  induction st with
  | nil => simp [setEntry]
  | cons e rest ih =>
      by_cases h : e.1 = k
      · simp [setEntry, h]
      · simp [setEntry, h, List.find?_cons, ih]

theorem find?_setEntry_ne (st : List (Str × Str)) (k' v k : Str) (h : k' ≠ k) :
    (setEntry st k' v).find? (fun e => decide (e.1 = k)) =
      st.find? (fun e => decide (e.1 = k)) := by
  induction st with
  | nil => simp [setEntry, h]
  | cons e rest ih =>
      by_cases he : e.1 = k'
      · simp [setEntry, he, List.find?_cons, h]
      · simp only [setEntry, if_neg he, List.find?_cons]
        cases hek : decide (e.1 = k) <;> simp [hek, ih]

theorem hasKey_cons (e : Str × Str) (rest : List (Str × Str)) (k : Str) :
    hasKey (e :: rest) k = (decide (e.1 = k) || hasKey rest k) := rfl

theorem hasKey_setEntry_self (st : List (Str × Str)) (k v : Str) :
    hasKey (setEntry st k v) k = true := by
  induction st with
  | nil => simp [setEntry, hasKey]
  | cons e rest ih =>
      by_cases h : e.1 = k
      · simp [setEntry, h, hasKey_cons]
      · simp [setEntry, h, hasKey_cons, ih]

theorem hasKey_setEntry_ne (st : List (Str × Str)) (k' v k : Str) (h : k' ≠ k) :
    hasKey (setEntry st k' v) k = hasKey st k := by
  induction st with
  | nil => simp [setEntry, hasKey, h]
  | cons e rest ih =>
      by_cases he : e.1 = k'
      · simp [setEntry, he, hasKey_cons]
      · simp [setEntry, he, hasKey_cons, ih]

theorem hasKey_filter_self (st : List (Str × Str)) (k : Str) :
    hasKey (st.filter (fun e => !decide (e.1 = k))) k = false := by
  induction st with
  | nil => simp [hasKey]
  | cons e rest ih =>
      by_cases h : e.1 = k
      · simpa [List.filter_cons, h] using ih
      · simp [List.filter_cons, h, hasKey_cons, ih]

theorem hasKey_filter_ne (st : List (Str × Str)) (k' k : Str) (h : k' ≠ k) :
    hasKey (st.filter (fun e => !decide (e.1 = k'))) k = hasKey st k := by
  induction st with
  | nil => simp
  | cons e rest ih =>
      by_cases he : e.1 = k'
      · have hek : e.1 ≠ k := by rw [he]; exact h
        simp [List.filter_cons, he, hasKey_cons, hek, h, ih]
      · simp [List.filter_cons, he, hasKey_cons, ih]

theorem isSome_find?_eq_any (st : List (Str × Str)) (k : Str) :
    (st.find? (fun e => decide (e.1 = k))).isSome = st.any (fun e => decide (e.1 = k)) := by
  induction st with
  | nil => simp
  | cons e rest ih =>
      by_cases h : e.1 = k <;> simp [List.find?_cons, List.any_cons, h, ih]

/-! ## Claim theorems: the basic store operations -/

/-- Claim C2: after `set(k, v)`, `get(k)` returns `v`, whatever the prior
state of the store. -/
theorem set_then_get (kv : KeyValueStore) (k v : Str) :
    (kv.set k v).get k = some v := by
  simp [KeyValueStore.get, KeyValueStore.set, find?_setEntry_self]

/-- Claim C9: `exists(k)` is true exactly when `get(k)` returns a value; the
two queries never disagree. -/
theorem exists_eq_isSome_get (kv : KeyValueStore) (k : Str) :
    kv.exists_ k = (kv.get k).isSome := by
  rw [KeyValueStore.exists_, KeyValueStore.get, ← isSome_find?_eq_any]
  cases kv.store_.find? (fun e => decide (e.1 = k)) <;> rfl

/-- Claim C3: when the source of a `load` cannot be opened, the call reports
failure and the store is returned exactly as it was. -/
theorem load_failure_frame (kv : KeyValueStore) :
    kv.load_from_file none = (kv, false) := rfl

/-- Claim C8: `save` never modifies the store's entries, whether or not the
destination could be opened. -/
theorem save_frame (kv : KeyValueStore) (canOpen : Bool) :
    (kv.save_to_file canOpen).1 = kv := by
  cases canOpen <;> simp [KeyValueStore.save_to_file]

/-- Claim C4: a successful `load` replaces the store's entire contents with
exactly the entries deserialized from the source, independently of the prior
contents; a key is present afterwards only when the source defines it. -/
theorem load_replaces (kv : KeyValueStore) (content : Str) (k : Str) :
    (kv.load_from_file (some content)).1.store_ = loadEntries content ∧
      (kv.load_from_file (some content)).1.exists_ k = hasKey (loadEntries content) k :=
  ⟨rfl, rfl⟩

/-! ## Operation traces: helper lemmas -/

theorem exists_eq_hasKey (kv : KeyValueStore) (k : Str) :
    kv.exists_ k = hasKey kv.store_ k := rfl

theorem save_to_file_fst (kv : KeyValueStore) (canOpen : Bool) :
    (kv.save_to_file canOpen).1 = kv := by
  cases canOpen <;> simp [KeyValueStore.save_to_file]

theorem exists_exec_unaffected (kv : KeyValueStore) (op : Op) (k : Str)
    (h : affects k op = false) : (exec kv op).exists_ k = kv.exists_ k := by
  cases op with
  | set k' v =>
      have hk : k' ≠ k := by simpa [affects] using h
      simp [exec, KeyValueStore.set, exists_eq_hasKey, hasKey_setEntry_ne _ _ _ _ hk]
  | get _ => rfl
  | remove k' =>
      have hk : k' ≠ k := by simpa [affects] using h
      have hk' : ∀ e : Str × Str, e.1 = k' → e.1 ≠ k := fun e he => he ▸ hk
      simp [exec, KeyValueStore.remove, exists_eq_hasKey, hasKey_filter_ne _ _ _ hk]
  | existsQ _ => rfl
  | print_all => rfl
  | clear => simp [affects] at h
  | save canOpen => rw [exec, save_to_file_fst]
  | load file =>
      cases file with
      | none => rfl
      | some content => simp [affects] at h

theorem exists_exec_affected (kv : KeyValueStore) (op : Op) (k : Str)
    (h : affects k op = true) : (exec kv op).exists_ k = installs k op := by
  cases op with
  | set k' v =>
      have hk : k' = k := by simpa [affects] using h
      subst hk
      simp [exec, KeyValueStore.set, exists_eq_hasKey, hasKey_setEntry_self, installs]
  | get _ => simp [affects] at h
  | remove k' =>
      have hk : k' = k := by simpa [affects] using h
      subst hk
      simp [exec, KeyValueStore.remove, exists_eq_hasKey, hasKey_filter_self, installs]
  | existsQ _ => simp [affects] at h
  | print_all => simp [affects] at h
  | clear => simp [exec, KeyValueStore.clear, exists_eq_hasKey, hasKey, installs]
  | save canOpen => simp [affects] at h
  | load file =>
      cases file with
      | none => simp [affects] at h
      | some content => rfl

/-- Claim C6: at the end of any finite trace of store operations (starting
from the empty store the process creates), `exists(k)` is true exactly when
the most recent operation affecting `k` — a `set`/`remove` of `k`, a `clear`,
or a successful `load` — was a `set` of `k` or a successful `load` whose
source defines `k`. -/
theorem exists_iff_last_installs (ops : List Op) (k : Str) :
    (run ops).exists_ k =
      ((ops.reverse.find? (affects k)).map (installs k)).getD false := by
  induction ops using List.reverseRecOn with
  | nil => rfl
  | append_singleton l op ih =>
      have hrun : run (l ++ [op]) = exec (run l) op := by
        simp [run, List.foldl_append]
      rw [hrun, List.reverse_append]
      cases haff : affects k op with
      | true =>
          rw [exists_exec_affected _ _ _ haff]
          simp [List.find?_cons, haff]
      | false =>
          rw [exists_exec_unaffected _ _ _ haff, ih]
          simp [List.find?_cons, haff]

/-! ## Duplicate keys in a load source: helper lemmas -/

theorem get_setEntry (st : List (Str × Str)) (k' v' k : Str) :
    (⟨setEntry st k' v'⟩ : KeyValueStore).get k =
      if k' = k then some v' else (⟨st⟩ : KeyValueStore).get k := by
  by_cases h : k' = k
  · subst h
    simp [KeyValueStore.get, find?_setEntry_self]
  · simp [KeyValueStore.get, find?_setEntry_ne _ _ _ _ h, h]

theorem lastDefined_cons (k : Str) (e : Str × Str) (L : List (Str × Str)) :
    lastDefined k (e :: L) =
      match lastDefined k L with
      | some v => some v
      | none => if e.1 = k then some e.2 else none := by
  unfold lastDefined
  rw [List.reverse_cons, List.find?_append]
  cases h : L.reverse.find? (fun e => decide (e.1 = k)) with
  | some x => simp [Option.or]
  | none => by_cases he : e.1 = k <;> simp [Option.or, List.find?_cons, he]

theorem get_foldl_processLine (lines : List Str) (st : List (Str × Str)) (k : Str) :
    (⟨lines.foldl processLine st⟩ : KeyValueStore).get k =
      match lastDefined k (lines.filterMap parseEntry) with
      | some v => some v
      | none => (⟨st⟩ : KeyValueStore).get k := by
  induction lines generalizing st with
  | nil => simp [lastDefined]
  | cons line rest ih =>
      rw [List.foldl_cons, List.filterMap_cons]
      cases hp : parseEntry line with
      | none =>
          simp only [processLine, hp]
          exact ih st
      | some e =>
          obtain ⟨k', v'⟩ := e
          simp only [processLine, hp]
          rw [ih, lastDefined_cons]
          cases lastDefined k (rest.filterMap parseEntry) with
          | some v => rfl
          | none =>
              by_cases h : k' = k
              · simp [get_setEntry, h]
              · simp [get_setEntry, h]

theorem keysDistinct_setEntry (st : List (Str × Str)) (k v : Str)
    (h : keysDistinct st = true) : keysDistinct (setEntry st k v) = true := by
  induction st with
  | nil => simp [setEntry, keysDistinct, hasKey]
  | cons e rest ih =>
      rw [keysDistinct, Bool.and_eq_true] at h
      by_cases he : e.1 = k
      · rw [setEntry, if_pos he, keysDistinct, Bool.and_eq_true]
        exact ⟨he ▸ h.1, h.2⟩
      · rw [setEntry, if_neg he, keysDistinct, Bool.and_eq_true]
        refine ⟨?_, ih h.2⟩
        rw [hasKey_setEntry_ne _ _ _ _ (fun hk => he hk.symm)]
        exact h.1

theorem keysDistinct_foldl_processLine (lines : List Str) (st : List (Str × Str))
    (h : keysDistinct st = true) : keysDistinct (lines.foldl processLine st) = true := by
  induction lines generalizing st with
  | nil => exact h
  | cons line rest ih =>
      rw [List.foldl_cons]
      refine ih _ ?_
      cases hp : parseEntry line with
      | none => simpa [processLine, hp] using h
      | some e =>
          obtain ⟨k, v⟩ := e
          simpa [processLine, hp] using keysDistinct_setEntry st k v h

/-- Claim C10: after a successful `load`, every key occurs at most once in
the store, and a key defined by several lines of the source maps to the value
of the last such line. -/
theorem load_last_wins (kv : KeyValueStore) (content : Str) (k : Str) :
    keysDistinct (kv.load_from_file (some content)).1.store_ = true ∧
      (kv.load_from_file (some content)).1.get k = lastDefined k (parsedEntries content) := by
  constructor
  · exact keysDistinct_foldl_processLine (getlines content) [] rfl
  · show (⟨(getlines content).foldl processLine []⟩ : KeyValueStore).get k = _
    rw [get_foldl_processLine, parsedEntries]
    cases lastDefined k ((getlines content).filterMap parseEntry) <;> rfl

/-! ## The per-line load behaviour against the specification's words -/

theorem takeWhile_not_eq_take_findIdx (l : Str) (p : Char → Bool) :
    l.takeWhile (fun c => !p c) = l.take (l.findIdx p) := by
  induction l with
  | nil => rfl
  | cons c rest ih =>
      rw [List.takeWhile_cons, List.findIdx_cons]
      cases h : p c
      · simp [h, ih]
      · simp [h]

theorem tail_dropWhile_not_eq_drop_findIdx (l : Str) (p : Char → Bool) :
    (l.dropWhile (fun c => !p c)).tail = l.drop (l.findIdx p + 1) := by
  induction l with
  | nil => rfl
  | cons c rest ih =>
      rw [List.dropWhile_cons, List.findIdx_cons]
      cases h : p c
      · simp [h, ih]
      · simp [h]

theorem any_colon_eq_mem (l : Str) :
    l.any (fun c => decide (c = ':')) = decide (':' ∈ l) := by
  by_cases h : ':' ∈ l
  · have h1 : l.any (fun c => decide (c = ':')) = true :=
      List.any_eq_true.mpr ⟨':', h, by simp⟩
    rw [h1, decide_eq_true h]
  · have h1 : l.any (fun c => decide (c = ':')) = false := by
      rw [List.any_eq_false]
      intro c hc hd
      have he : c = ':' := of_decide_eq_true hd
      rw [he] at hc
      exact h hc
    rw [h1, decide_eq_false h]

theorem parseEntry_eq_specParseLine (line : Str) :
    parseEntry line = specParseLine line := by
  simp only [parseEntry, specParseLine]
  generalize trim line = t
  by_cases h0 : t = []
  · have hbrace : ¬(t = ['{'] ∨ t = ['}']) := by rw [h0]; decide
    have hmem : ¬(':' ∈ t) := by rw [h0]; exact List.not_mem_nil ':'
    rw [if_pos (Or.inl h0), if_neg hbrace, if_neg hmem]
  · by_cases hbrace : t = ['{'] ∨ t = ['}']
    · rw [if_pos (Or.inr hbrace), if_pos hbrace]
    · have horL : ¬(t = [] ∨ t = ['{'] ∨ t = ['}']) := fun h => h.elim h0 hbrace
      rw [if_neg horL, if_neg hbrace]
      by_cases hc : ':' ∈ t
      · have hany : (t.any fun c => decide (c = ':')) = true := by
          rw [any_colon_eq_mem]; exact decide_eq_true hc
        rw [if_pos hany, if_pos hc,
          takeWhile_not_eq_take_findIdx t (fun c => decide (c = ':')),
          tail_dropWhile_not_eq_drop_findIdx t (fun c => decide (c = ':'))]
      · have hany : ¬((t.any fun c => decide (c = ':')) = true) := by
          rw [any_colon_eq_mem, decide_eq_false hc]
          exact Bool.false_ne_true
        rw [if_neg hany, if_neg hc]

/-- Claim C5, counterexample: on the line `  "a": "v"` — a line `save` itself
writes — the loader stores the value `v`, while the claim's description
(which never trims the fragment after the colon) yields ` "v`. -/
theorem claim_parse_counterexample :
    parseEntry ("  \"a\": \"v\"").data ≠ claimParseLine ("  \"a\": \"v\"").data := by
  decide

/-- Claim C5 (amended): the per-line load behaviour is as the claim words it,
provided the text before the first `:` and the text after it are each trimmed
of surrounding whitespace before the quote and comma stripping. -/
theorem processLine_matches_spec (st : List (Str × Str)) (line : Str) :
    processLine st line =
      match specParseLine line with
      | none => st
      | some (k, v) => setEntry st k v := by
  simp only [processLine]
  rw [parseEntry_eq_specParseLine]

/-! ## Round trip of the snapshot format: helper lemmas -/

theorem escape_eq_self (s : Str) (h : ∀ c ∈ s, ¬c = '"' ∧ ¬c = '\\') :
    escape s = s := by
  induction s with
  | nil => rfl
  | cons c rest ih =>
      have hc := h c (List.mem_cons_self c rest)
      have hrest : escape rest = rest :=
        ih (fun d hd => h d (List.mem_cons_of_mem c hd))
      simp only [escape, List.foldr_cons, if_neg hc.1, if_neg hc.2]
      show c :: escape rest = c :: rest
      rw [hrest]

theorem trim_cons_ws (c : Char) (s : Str) (h : isWsChar c = true) :
    trim (c :: s) = trim s := by
  simp [trim, List.dropWhile_cons, h]

theorem dropTrail_concat (s : Str) (d : Char) (hd : isWsChar d = false) :
    ((s ++ [d]).reverse.dropWhile isWsChar).reverse = s ++ [d] := by
  have h1 : (s ++ [d]).reverse = d :: s.reverse := by simp
  rw [h1, List.dropWhile_cons, if_neg (by simp [hd])]
  simp

theorem trim_sandwich (c d : Char) (mid : Str)
    (hc : isWsChar c = false) (hd : isWsChar d = false) :
    trim (c :: (mid ++ [d])) = c :: (mid ++ [d]) := by
  unfold trim
  rw [List.dropWhile_cons, if_neg (by simp [hc])]
  exact dropTrail_concat (c :: mid) d hd

theorem takeWhile_append_all (p : Char → Bool) (l rest : Str)
    (h : ∀ c ∈ l, p c = true) : (l ++ rest).takeWhile p = l ++ rest.takeWhile p := by
  induction l with
  | nil => rfl
  | cons c l ih =>
      rw [List.cons_append, List.takeWhile_cons,
        if_pos (h c (List.mem_cons_self c l)),
        ih (fun d hd => h d (List.mem_cons_of_mem c hd)), List.cons_append]

theorem dropWhile_append_all (p : Char → Bool) (l rest : Str)
    (h : ∀ c ∈ l, p c = true) : (l ++ rest).dropWhile p = rest.dropWhile p := by
  induction l with
  | nil => rfl
  | cons c l ih =>
      rw [List.cons_append, List.dropWhile_cons,
        if_pos (h c (List.mem_cons_self c l))]
      exact ih (fun d hd => h d (List.mem_cons_of_mem c hd))

theorem stripTrail_concat (c : Char) (s : Str) : stripTrail c (s ++ [c]) = s := by
  rw [stripTrail, List.getLast?_concat]
  simp [List.dropLast_concat]

theorem stripTrail_concat_ne (c d : Char) (s : Str) (h : ¬d = c) :
    stripTrail c (s ++ [d]) = s ++ [d] := by
  rw [stripTrail, List.getLast?_concat]
  simp [h]

theorem getlines_append :
    ∀ (l rest : Str), '\n' ∉ l → getlines (l ++ '\n' :: rest) = l :: getlines rest := by
  intro l
  induction l with
  | nil => intro rest _; simp [getlines]
  | cons c l ih =>
      intro rest h
      have hc : ¬c = '\n' := fun hc => h (by rw [hc]; exact List.mem_cons_self _ _)
      have h' : '\n' ∉ l := fun hm => h (List.mem_cons_of_mem c hm)
      rw [List.cons_append]
      show getlines (c :: (l ++ '\n' :: rest)) = (c :: l) :: getlines rest
      rw [getlines, if_neg hc, ih rest h']

theorem cleanKey_forall (k : Str) (h : cleanKey k = true) :
    ∀ c ∈ k, ¬c = '"' ∧ ¬c = '\\' ∧ ¬c = '\n' ∧ ¬c = ':' := by
  intro c hc
  have hx := List.all_eq_true.mp h c hc
  simpa [not_or, and_assoc] using hx

theorem cleanValue_forall (v : Str) (h : cleanValue v = true) :
    ∀ c ∈ v, ¬c = '"' ∧ ¬c = '\\' ∧ ¬c = '\n' := by
  intro c hc
  have hx := List.all_eq_true.mp h c hc
  simpa [not_or, and_assoc] using hx

theorem entryLine_eq_true (k v : Str) :
    entryLine (k, v) true =
      ' ' :: ' ' :: '"' :: (escape k ++ ('"' :: ':' :: ' ' :: '"' :: (escape v ++ ['"']))) := by
  simp [entryLine, List.append_assoc]

theorem entryLine_eq_false (k v : Str) :
    entryLine (k, v) false =
      ' ' :: ' ' :: '"' :: (escape k ++ ('"' :: ':' :: ' ' :: '"' :: (escape v ++ ['"', ',']))) := by
  simp [entryLine, List.append_assoc]

theorem newline_not_mem_entryLine (k v : Str) (b : Bool)
    (hk : cleanKey k = true) (hv : cleanValue v = true) :
    '\n' ∉ entryLine (k, v) b := by
  have hk1 : escape k = k :=
    escape_eq_self k (fun c hc => ⟨(cleanKey_forall k hk c hc).1, (cleanKey_forall k hk c hc).2.1⟩)
  have hv1 : escape v = v :=
    escape_eq_self v (fun c hc => ⟨(cleanValue_forall v hv c hc).1, (cleanValue_forall v hv c hc).2.1⟩)
  have hkn : '\n' ∉ k := fun hm => (cleanKey_forall k hk '\n' hm).2.2.1 rfl
  have hvn : '\n' ∉ v := fun hm => (cleanValue_forall v hv '\n' hm).2.2 rfl
  cases b
  · rw [entryLine_eq_false, hk1, hv1]
    simp [hkn, hvn]
  · rw [entryLine_eq_true, hk1, hv1]
    simp [hkn, hvn]

theorem takeWhile_quoted_split (k rest : Str)
    (hkcol : ∀ c ∈ k, (!decide (c = ':')) = true) :
    ('"' :: (k ++ ('"' :: ':' :: rest))).takeWhile (fun c => !decide (c = ':')) =
      '"' :: (k ++ ['"']) := by
  rw [List.takeWhile_cons, if_pos (by decide), takeWhile_append_all _ _ _ hkcol,
    List.takeWhile_cons, if_pos (by decide), List.takeWhile_cons, if_neg (by simp)]

theorem dropWhile_quoted_split (k rest : Str)
    (hkcol : ∀ c ∈ k, (!decide (c = ':')) = true) :
    ('"' :: (k ++ ('"' :: ':' :: rest))).dropWhile (fun c => !decide (c = ':')) =
      ':' :: rest := by
  rw [List.dropWhile_cons, if_pos (by decide), dropWhile_append_all _ _ _ hkcol,
    List.dropWhile_cons, if_pos (by decide), List.dropWhile_cons, if_neg (by simp)]

theorem key_extract (k : Str) :
    stripTrail '"' (stripLeadQuote (trim ('"' :: (k ++ ['"'])))) = k := by
  rw [trim_sandwich '"' '"' k (by decide) (by decide)]
  show stripTrail '"' (k ++ ['"']) = k
  exact stripTrail_concat '"' k

theorem value_extract_last (v : Str) :
    stripTrail '"' (stripTrail ',' (stripLeadQuote (trim (' ' :: '"' :: (v ++ ['"']))))) = v := by
  rw [trim_cons_ws _ _ (by decide), trim_sandwich '"' '"' v (by decide) (by decide)]
  show stripTrail '"' (stripTrail ',' (v ++ ['"'])) = v
  rw [stripTrail_concat_ne ',' '"' v (by decide)]
  exact stripTrail_concat '"' v

theorem value_extract_mid (v : Str) :
    stripTrail '"' (stripTrail ',' (stripLeadQuote (trim (' ' :: '"' :: (v ++ ['"', ',']))))) = v := by
  have hshape : ('"' :: (v ++ ['"', ',']) : Str) = '"' :: ((v ++ ['"']) ++ [',']) := by
    simp [List.append_assoc]
  rw [trim_cons_ws _ _ (by decide), hshape,
    trim_sandwich '"' ',' (v ++ ['"']) (by decide) (by decide)]
  show stripTrail '"' (stripTrail ',' ((v ++ ['"']) ++ [','])) = v
  rw [stripTrail_concat ',' (v ++ ['"'])]
  exact stripTrail_concat '"' v

/-- The decisive parsing fact behind the snapshot round trip: the loader
recovers exactly the entry `save` wrote, for a key without quote, backslash,
newline or colon and a value without quote, backslash or newline. -/
theorem parseEntry_entryLine (k v : Str) (b : Bool)
    (hk : cleanKey k = true) (hv : cleanValue v = true) :
    parseEntry (entryLine (k, v) b) = some (k, v) := by
  have hkprop := cleanKey_forall k hk
  have hvprop := cleanValue_forall v hv
  have hk1 : escape k = k :=
    escape_eq_self k (fun c hc => ⟨(hkprop c hc).1, (hkprop c hc).2.1⟩)
  have hv1 : escape v = v :=
    escape_eq_self v (fun c hc => ⟨(hvprop c hc).1, (hvprop c hc).2.1⟩)
  have hkcol : ∀ c ∈ k, (!decide (c = ':')) = true := by
    intro c hc
    simp [(hkprop c hc).2.2.2]
  cases b
  · -- not the last entry: the written line ends with a comma
    have hline : entryLine (k, v) false =
        ' ' :: ' ' :: '"' :: (k ++ ('"' :: ':' :: ' ' :: '"' :: (v ++ ['"', ',']))) := by
      rw [entryLine_eq_false, hk1, hv1]
    have hshape : ('"' :: (k ++ ('"' :: ':' :: ' ' :: '"' :: (v ++ ['"', ',']))) : Str) =
        '"' :: ((k ++ ('"' :: ':' :: ' ' :: '"' :: (v ++ ['"']))) ++ [',']) := by
      simp [List.append_assoc]
    have htrim : trim (entryLine (k, v) false) =
        '"' :: (k ++ ('"' :: ':' :: ' ' :: '"' :: (v ++ ['"', ',']))) := by
      rw [hline, trim_cons_ws _ _ (by decide), trim_cons_ws _ _ (by decide), hshape,
        trim_sandwich '"' ',' (k ++ ('"' :: ':' :: ' ' :: '"' :: (v ++ ['"'])))
          (by decide) (by decide)]
    have hmem : (trim (entryLine (k, v) false)).any (fun c => decide (c = ':')) = true := by
      refine List.any_eq_true.mpr ⟨':', ?_, by simp⟩
      rw [htrim]
      simp
    have hskip : ¬(trim (entryLine (k, v) false) = [] ∨
        trim (entryLine (k, v) false) = ['{'] ∨ trim (entryLine (k, v) false) = ['}']) := by
      rw [htrim]
      intro hor
      rcases hor with h | h | h
      · exact absurd h (by simp)
      · rw [List.cons_eq_cons] at h
        exact absurd h.1 (by decide)
      · rw [List.cons_eq_cons] at h
        exact absurd h.1 (by decide)
    have htake := takeWhile_quoted_split k (' ' :: '"' :: (v ++ ['"', ','])) hkcol
    have hdrop := dropWhile_quoted_split k (' ' :: '"' :: (v ++ ['"', ','])) hkcol
    simp only [parseEntry]
    rw [if_neg hskip, if_pos hmem, htrim, htake, hdrop, List.tail_cons,
      key_extract k, value_extract_mid v]
  · -- the last entry: no comma
    have hline : entryLine (k, v) true =
        ' ' :: ' ' :: '"' :: (k ++ ('"' :: ':' :: ' ' :: '"' :: (v ++ ['"']))) := by
      rw [entryLine_eq_true, hk1, hv1]
    have hshape : ('"' :: (k ++ ('"' :: ':' :: ' ' :: '"' :: (v ++ ['"']))) : Str) =
        '"' :: ((k ++ ('"' :: ':' :: ' ' :: '"' :: v)) ++ ['"']) := by
      simp [List.append_assoc]
    have htrim : trim (entryLine (k, v) true) =
        '"' :: (k ++ ('"' :: ':' :: ' ' :: '"' :: (v ++ ['"']))) := by
      rw [hline, trim_cons_ws _ _ (by decide), trim_cons_ws _ _ (by decide), hshape,
        trim_sandwich '"' '"' (k ++ ('"' :: ':' :: ' ' :: '"' :: v)) (by decide) (by decide)]
    have hmem : (trim (entryLine (k, v) true)).any (fun c => decide (c = ':')) = true := by
      refine List.any_eq_true.mpr ⟨':', ?_, by simp⟩
      rw [htrim]
      simp
    have hskip : ¬(trim (entryLine (k, v) true) = [] ∨
        trim (entryLine (k, v) true) = ['{'] ∨ trim (entryLine (k, v) true) = ['}']) := by
      rw [htrim]
      intro hor
      rcases hor with h | h | h
      · exact absurd h (by simp)
      · rw [List.cons_eq_cons] at h
        exact absurd h.1 (by decide)
      · rw [List.cons_eq_cons] at h
        exact absurd h.1 (by decide)
    have htake := takeWhile_quoted_split k (' ' :: '"' :: (v ++ ['"'])) hkcol
    have hdrop := dropWhile_quoted_split k (' ' :: '"' :: (v ++ ['"'])) hkcol
    simp only [parseEntry]
    rw [if_neg hskip, if_pos hmem, htrim, htake, hdrop, List.tail_cons,
      key_extract k, value_extract_last v]
theorem processLine_open_brace (st : List (Str × Str)) : processLine st ['{'] = st := by
  have h : parseEntry ['{'] = none := by decide
  simp [processLine, h]

theorem processLine_close_brace (st : List (Str × Str)) : processLine st ['}'] = st := by
  have h : parseEntry ['}'] = none := by decide
  simp [processLine, h]

theorem foldl_processLine_serializeEntries :
    ∀ (es : List (Str × Str)) (st : List (Str × Str)),
      (∀ e ∈ es, cleanKey e.1 = true ∧ cleanValue e.2 = true) →
      (getlines (serializeEntries es ++ ('}' :: '\n' :: []))).foldl processLine st =
        es.foldl (fun acc e => setEntry acc e.1 e.2) st := by
  intro es
  induction es with
  | nil =>
      intro st _
      show (getlines ('}' :: '\n' :: [])).foldl processLine st = st
      have hg : getlines ('}' :: '\n' :: []) = [['}']] := by decide
      rw [hg, List.foldl_cons, List.foldl_nil, processLine_close_brace]
  | cons e rest ih =>
      intro st h
      obtain ⟨k, v⟩ := e
      have he := h (k, v) (List.mem_cons_self _ _)
      cases rest with
      | nil =>
          show (getlines ((entryLine (k, v) true ++ ['\n']) ++ ('}' :: '\n' :: []))).foldl
            processLine st = _
          have hsh : (entryLine (k, v) true ++ ['\n']) ++ ('}' :: '\n' :: []) =
              entryLine (k, v) true ++ ('\n' :: ('}' :: '\n' :: [])) := by
            simp [List.append_assoc]
          rw [hsh, getlines_append _ _ (newline_not_mem_entryLine k v true he.1 he.2),
            List.foldl_cons]
          have hp : processLine st (entryLine (k, v) true) = setEntry st k v := by
            simp [processLine, parseEntry_entryLine k v true he.1 he.2]
          have hg : getlines ('}' :: '\n' :: []) = [['}']] := by decide
          rw [hp, hg, List.foldl_cons, List.foldl_nil, processLine_close_brace]
          rfl
      | cons e2 rest2 =>
          show (getlines ((entryLine (k, v) false ++ '\n' :: serializeEntries (e2 :: rest2)) ++
            ('}' :: '\n' :: []))).foldl processLine st = _
          have hsh : (entryLine (k, v) false ++ '\n' :: serializeEntries (e2 :: rest2)) ++
              ('}' :: '\n' :: []) =
              entryLine (k, v) false ++
                ('\n' :: (serializeEntries (e2 :: rest2) ++ ('}' :: '\n' :: []))) := by
            simp [List.append_assoc]
          rw [hsh, getlines_append _ _ (newline_not_mem_entryLine k v false he.1 he.2),
            List.foldl_cons]
          have hp : processLine st (entryLine (k, v) false) = setEntry st k v := by
            simp [processLine, parseEntry_entryLine k v false he.1 he.2]
          rw [hp, ih (setEntry st k v) (fun e' he' => h e' (List.mem_cons_of_mem _ he'))]
          rfl

theorem setEntry_fresh (acc : List (Str × Str)) (k v : Str) (h : hasKey acc k = false) :
    setEntry acc k v = acc ++ [(k, v)] := by
  induction acc with
  | nil => rfl
  | cons e rest ih =>
      rw [hasKey_cons] at h
      have h1 : decide (e.1 = k) = false ∧ hasKey rest k = false := by
        simpa using h
      simp only [setEntry, if_neg (of_decide_eq_false h1.1)]
      rw [ih h1.2, List.cons_append]

theorem foldl_setEntry_fresh :
    ∀ (es acc : List (Str × Str)), keysDistinct es = true →
      (∀ e ∈ es, hasKey acc e.1 = false) →
      es.foldl (fun a e => setEntry a e.1 e.2) acc = acc ++ es := by
  intro es
  induction es with
  | nil => intro acc _ _; simp
  | cons e rest ih =>
      intro acc hdist hfresh
      rw [keysDistinct, Bool.and_eq_true] at hdist
      have hrest : hasKey rest e.1 = false := by simpa using hdist.1
      rw [List.foldl_cons, setEntry_fresh acc e.1 e.2 (hfresh e (List.mem_cons_self _ _))]
      rw [ih (acc ++ [(e.1, e.2)]) hdist.2 ?hfr]
      · simp
      case hfr =>
        intro e' he'
        have h1 : hasKey acc e'.1 = false := hfresh e' (List.mem_cons_of_mem _ he')
        have h2 : decide (e.1 = e'.1) = false := by
          refine decide_eq_false (fun hq => ?_)
          have hmem : hasKey rest e.1 = true :=
            List.any_eq_true.mpr ⟨e', he', by simp [hq.symm]⟩
          rw [hrest] at hmem
          exact Bool.noConfusion hmem
        show (acc ++ [(e.1, e.2)]).any (fun x => decide (x.1 = e'.1)) = false
        rw [List.any_append]
        have h1' : acc.any (fun x => decide (x.1 = e'.1)) = false := h1
        simp [h1', h2]

/-- Claim C1, counterexample to the claim as stated: the store holding the
single entry `("a:b", "v")` has a value needing no escaping at all, yet
after `save` to a destination and `load` back from it the key `a:b` is gone
(the loader splits its line at the first colon, inside this key). -/
theorem roundtrip_counterexample :
    (⟨[(("a:b").data, ("v").data)]⟩ : KeyValueStore).store_.all
        (fun e => valueNeedsNoEscaping e.2) = true ∧
      (((⟨[(("a:b").data, ("v").data)]⟩ : KeyValueStore).save_to_file true).1.load_from_file
        ((⟨[(("a:b").data, ("v").data)]⟩ : KeyValueStore).save_to_file true).2).1.get
          (("a:b").data) = none ∧
      (⟨[(("a:b").data, ("v").data)]⟩ : KeyValueStore).get (("a:b").data) =
        some (("v").data) := by
  decide

/-- Claim C1 (amended): for a store with pairwise-distinct keys whose keys
and values contain no quote, backslash or newline, and whose keys also
contain no colon, `save` to a destination followed by `load` from that same
destination reproduces the store exactly. -/
theorem save_load_roundtrip (kv : KeyValueStore)
    (hdist : keysDistinct kv.store_ = true)
    (hclean : ∀ e ∈ kv.store_, cleanKey e.1 = true ∧ cleanValue e.2 = true) :
    ((kv.save_to_file true).1.load_from_file (kv.save_to_file true).2).1 = kv := by
  have hsave : kv.save_to_file true = (kv, some (serialize kv)) := rfl
  rw [hsave]
  show (⟨(getlines (serialize kv)).foldl processLine []⟩ : KeyValueStore) = kv
  have hser : serialize kv =
      ['{'] ++ '\n' :: (serializeEntries kv.store_ ++ ('}' :: '\n' :: [])) := rfl
  rw [hser, getlines_append _ _ (by decide), List.foldl_cons, processLine_open_brace,
    foldl_processLine_serializeEntries kv.store_ [] hclean,
    foldl_setEntry_fresh kv.store_ [] hdist (fun e _ => rfl)]
  rw [List.nil_append]

/-- Witness: the round-trip theorem applied to the concrete two-entry store
`{name ↦ Ada, lang ↦ Rust}`. -/
theorem save_load_roundtrip_witness :
    keysDistinct (⟨[(("name").data, ("Ada").data), (("lang").data, ("Rust").data)]⟩ :
        KeyValueStore).store_ = true ∧
      (∀ e ∈ (⟨[(("name").data, ("Ada").data), (("lang").data, ("Rust").data)]⟩ :
        KeyValueStore).store_, cleanKey e.1 = true ∧ cleanValue e.2 = true) ∧
      (((⟨[(("name").data, ("Ada").data), (("lang").data, ("Rust").data)]⟩ :
          KeyValueStore).save_to_file true).1.load_from_file
        ((⟨[(("name").data, ("Ada").data), (("lang").data, ("Rust").data)]⟩ :
          KeyValueStore).save_to_file true).2).1 =
        ⟨[(("name").data, ("Ada").data), (("lang").data, ("Rust").data)]⟩ :=
  ⟨by decide, by decide, save_load_roundtrip _ (by decide) (by decide)⟩

end KVStore

